import Mathlib

/-!
Verification of the stereonet orientation/geometry core.

This file gives a shallow embedding, over the real numbers, of the core
geometry code (direction cosines, lines, planes, stereonet projections and
the fold best-fit analysis) and proves or refutes the specified properties.
Python floats are modelled as real numbers; Python exceptions
(AssertionError, StopIteration, ValueError) are modelled with an explicit
error type and Except-valued functions.
-/

noncomputable section

namespace Stereonet

open Real List

/-- Models Python exceptions raised by the core code: the assertion in
Plane.from_spanning_direction_cosines, the StopIteration escaping
sum_iterable or average on an empty iterable, and the
ValueError raised by Fold.profile_plane_dip. -/
inductive PyErr where
  | assertionError : PyErr
  | stopIteration : PyErr
  | valueErrorNoProfilePlane : PyErr
deriving DecidableEq

/-- Embeds the DirectionCosines tuple class: north, east, down components. -/
@[ext]
structure DirectionCosines where
  north : ℝ
  east : ℝ
  down : ℝ

instance : DecidableEq DirectionCosines := Classical.decEq _

/-- Embeds DirectionCosines.__add__ (componentwise). -/
def DirectionCosines.add (a b : DirectionCosines) : DirectionCosines :=
  ⟨a.north + b.north, a.east + b.east, a.down + b.down⟩

/-- Embeds DirectionCosines.__sub__ (componentwise). -/
def DirectionCosines.sub (a b : DirectionCosines) : DirectionCosines :=
  ⟨a.north - b.north, a.east - b.east, a.down - b.down⟩

/-- Embeds DirectionCosines.__mul__ (scalar multiplication). -/
def DirectionCosines.mul (a : DirectionCosines) (k : ℝ) : DirectionCosines :=
  ⟨a.north * k, a.east * k, a.down * k⟩

/-- Embeds DirectionCosines.__truediv__ (scalar division). -/
def DirectionCosines.div (a : DirectionCosines) (k : ℝ) : DirectionCosines :=
  ⟨a.north / k, a.east / k, a.down / k⟩

/-- Embeds DirectionCosines.__neg__. -/
def DirectionCosines.neg (a : DirectionCosines) : DirectionCosines :=
  ⟨-a.north, -a.east, -a.down⟩

/-- Embeds DirectionCosines.__float__: the Euclidean vector length. -/
def DirectionCosines.norm (a : DirectionCosines) : ℝ :=
  Real.sqrt (a.north ^ 2 + a.east ^ 2 + a.down ^ 2)

/-- Embeds DirectionCosines.normalised: the vector divided by its length. -/
def DirectionCosines.normalised (a : DirectionCosines) : DirectionCosines :=
  a.div a.norm

/-- Embeds DirectionCosines.cross_product. -/
def DirectionCosines.cross_product (a b : DirectionCosines) : DirectionCosines :=
  ⟨a.east * b.down - a.down * b.east,
   a.down * b.north - a.north * b.down,
   a.north * b.east - a.east * b.north⟩

/-- Embeds DirectionCosines.dot_product. -/
def DirectionCosines.dot_product (a b : DirectionCosines) : ℝ :=
  a.north * b.north + a.east * b.east + a.down * b.down

/-- Zero vector of direction cosines. -/
def DirectionCosines.zero : DirectionCosines := ⟨0, 0, 0⟩

/-- Models the Python float modulo operation x % y, whose result for y > 0
lies in the interval from 0 (inclusive) to y (exclusive). -/
def pymod (x y : ℝ) : ℝ := x - y * ⌊x / y⌋

/-- Embeds the Line class: plunge and trend as stored on the instance. -/
@[ext]
structure Line where
  plunge : ℝ
  trend : ℝ

/-- Embeds Line.__init__: a negative plunge is negated with pi added to the
trend, then the trend is reduced modulo two pi. -/
def Line.make (plunge trend : ℝ) : Line :=
  if plunge < 0 then ⟨-plunge, pymod (trend + π) (2 * π)⟩
  else ⟨plunge, pymod trend (2 * π)⟩

/-- Embeds the trend computation inside Line.from_direction_cosines: pi/2 or
3pi/2 when north is zero according to the sign of east, otherwise
atan(east / north), plus pi when north is negative. -/
def rawTrend (u : DirectionCosines) : ℝ :=
  if u.north = 0 then (if 0 ≤ u.east then π / 2 else 3 * π / 2)
  else Real.arctan (u.east / u.north) + (if u.north < 0 then π else 0)

/-- Embeds Line.from_direction_cosines: normalise, plunge = asin(down), trend
as computed by rawTrend, then the Line constructor. -/
def Line.from_direction_cosines (v : DirectionCosines) : Line :=
  let u := v.normalised
  Line.make (Real.arcsin u.down) (rawTrend u)

/-- Embeds Line.direction_cosines. -/
def Line.direction_cosines (l : Line) : DirectionCosines :=
  ⟨Real.cos l.plunge * Real.cos l.trend,
   Real.cos l.plunge * Real.sin l.trend,
   Real.sin l.plunge⟩

/-- Models sys.float_info.epsilon, which is 2 to the power -52. -/
def floatEps : ℝ := (2 : ℝ) ^ (-52 : ℤ)

/-- Embeds Line.rotate_around: the Rodrigues rotation matrix built from the
axis direction cosines, applied to the subject line's direction cosines,
followed by the near-zero clamp of the down component and the hemisphere
correction, converted back to a Line. -/
def Line.rotate_around (l : Line) (axis : Line) (lat : ℝ) : Line :=
  let a := axis.direction_cosines
  let rotcos := Real.cos lat
  let rotsin := Real.sin lat
  let multiplier := 1 - rotcos
  let u := l.direction_cosines
  let r : DirectionCosines :=
    ⟨(rotcos + a.north ^ 2 * multiplier) * u.north
       + (-a.down * rotsin + a.north * a.east * multiplier) * u.east
       + (a.east * rotsin + a.north * a.down * multiplier) * u.down,
     (a.down * rotsin + a.east * a.north * multiplier) * u.north
       + (rotcos + a.east ^ 2 * multiplier) * u.east
       + (-a.north * rotsin + a.east * a.down * multiplier) * u.down,
     (-a.east * rotsin + a.down * a.north * multiplier) * u.north
       + (a.north * rotsin + a.down * a.east * multiplier) * u.east
       + (rotcos + a.down ^ 2 * multiplier) * u.down⟩
  let r2 := if -floatEps < r.down ∧ r.down < 0 then
      (⟨r.north, r.east, 0⟩ : DirectionCosines) else r
  let r3 := if r2.down < 0 then r2.neg else r2
  Line.from_direction_cosines r3

/-- Embeds the Plane class: strike and dip as stored on the instance. -/
@[ext]
structure Plane where
  strike : ℝ
  dip : ℝ

/-- Embeds Plane.__init__: a negative dip is negated with pi added to the
strike, then the strike is reduced modulo two pi. -/
def Plane.make (strike dip : ℝ) : Plane :=
  if dip < 0 then ⟨pymod (strike + π) (2 * π), -dip⟩
  else ⟨pymod strike (2 * π), dip⟩

/-- Embeds Plane.pole. -/
def Plane.pole (p : Plane) : Line :=
  Line.make (π / 2 - p.dip) (p.strike - π / 2)

/-- Embeds Plane.from_pole. -/
def Plane.from_pole (l : Line) : Plane :=
  Plane.make (l.trend + π / 2) (π / 2 - l.plunge)

/-- Embeds Plane.from_direction_cosines. -/
def Plane.from_direction_cosines (v : DirectionCosines) : Plane :=
  Plane.from_pole (Line.from_direction_cosines v)

/-- Embeds Plane.from_spanning_direction_cosines, whose assertion that the
two vectors are neither equal nor opposite is modelled as an error value. -/
def Plane.from_spanning_direction_cosines (d1 d2 : DirectionCosines) :
    Except PyErr Plane :=
  if d1 = d2 ∨ d1 = d2.neg then .error .assertionError
  else
    let normal := d1.cross_product d2
    let normal2 := if normal.down < 0 then normal.neg else normal
    .ok (Plane.from_direction_cosines normal2)

/-- Embeds Plane.from_spanning_lines. -/
def Plane.from_spanning_lines (l1 l2 : Line) : Except PyErr Plane :=
  Plane.from_spanning_direction_cosines l1.direction_cosines l2.direction_cosines

/-- Models the spec's antipode of a line: the line built from the negated
direction cosines. -/
def antipode (l : Line) : Line :=
  Line.from_direction_cosines l.direction_cosines.neg

/-- Embeds EqualAngle.line_coordinates from stereonets.py. -/
def EqualAngle.line_coordinates (l : Line) : ℝ × ℝ :=
  (Real.tan (π / 4 - l.plunge / 2) * Real.sin l.trend,
   Real.tan (π / 4 - l.plunge / 2) * Real.cos l.trend)

/-- Embeds EqualArea.line_coordinates from stereonets.py. -/
def EqualArea.line_coordinates (l : Line) : ℝ × ℝ :=
  (Real.sqrt 2 * Real.sin (π / 4 - l.plunge / 2) * Real.sin l.trend,
   Real.sqrt 2 * Real.sin (π / 4 - l.plunge / 2) * Real.cos l.trend)

/-- Embeds sum_iterable from analysis.py for direction cosines: the head of
the list seeds the fold; an empty iterable raises StopIteration. -/
def sum_iterable : List DirectionCosines → Except PyErr DirectionCosines
  | [] => .error .stopIteration
  | x :: xs => .ok (xs.foldl DirectionCosines.add x)

/-- Embeds average from analysis.py for direction cosines: the running sum
divided by the count; an empty iterable raises StopIteration. -/
def average_dircos : List DirectionCosines → Except PyErr DirectionCosines
  | [] => .error .stopIteration
  | x :: xs => .ok ((xs.foldl DirectionCosines.add x).div (x :: xs).length)

/-- Embeds the Python stable sort of direction cosines by descending down
component used in Fold.profile_plane_strike. -/
def sortByDownDesc (l : List DirectionCosines) : List DirectionCosines :=
  l.mergeSort fun a b => decide (b.down ≤ a.down)

/-- Embeds the Python stable sort of direction cosines by descending north
component used in Fold.axial_plane. -/
def sortByNorthDesc (l : List DirectionCosines) : List DirectionCosines :=
  l.mergeSort fun a b => decide (b.north ≤ a.north)

/-- Embeds the pair-difference loop of Fold.profile_plane_strike: walking the
pole list while accumulating a seen list, and collecting, for each pole, the
differences to every list element not yet seen (the membership test uses
tuple equality, so equal direction cosines are skipped). -/
def diffLoop (all : List DirectionCosines) :
    List DirectionCosines → List DirectionCosines → List DirectionCosines
  | _, [] => []
  | seen, pole :: rest =>
      ((all.filter fun p => decide (¬ p ∈ seen ++ [pole])).map fun p => p.sub pole)
        ++ diffLoop all (seen ++ [pole]) rest

/-- Embeds the sign reorientation in Fold.profile_plane_strike: a difference
vector is kept when its dot product with the reference direction is
nonnegative, and negated otherwise. -/
def signFix (ref d : DirectionCosines) : DirectionCosines :=
  if 0 ≤ ref.dot_product d then d else d.neg

/-- Embeds Fold.profile_plane_strike. -/
def profile_plane_strike (poles : List Line) : Except PyErr ℝ :=
  let pdc := poles.map Line.direction_cosines
  let sorted := sortByDownDesc pdc
  match sum_iterable sorted with
  | .error e => .error e
  | .ok s =>
    let avg_pole := Line.from_direction_cosines s
    let diffs := diffLoop sorted [] sorted
    let ref := (Line.make 0 (avg_pole.trend - π / 2)).direction_cosines
    match sum_iterable (diffs.map (signFix ref)) with
    | .error e => .error e
    | .ok t => .ok (Line.from_direction_cosines t).trend

/-- Models Python round on a real number: round half to even. -/
def pyRound (x : ℝ) : ℤ :=
  if Int.fract x = 1 / 2 then (if 2 ∣ ⌊x⌋ then ⌊x⌋ else ⌊x⌋ + 1)
  else round x

/-- Embeds int(round(len(poles) / 2)) from Fold.profile_plane_dip. -/
def half_points (n : ℕ) : ℕ := (pyRound ((n : ℝ) / 2)).toNat

/-- Embeds the classification count in Fold.profile_plane_dip: the number of
poles whose rotation about the axis by the candidate dip has a negative east
direction cosine. -/
def count_below (poles : List Line) (axis : Line) (dip : ℝ) : ℕ :=
  (poles.filter fun pole =>
    decide ((pole.rotate_around axis dip).direction_cosines.east < 0)).length

/-- Embeds the dip-sweeping while loop of Fold.profile_plane_dip, with an
explicit fuel argument; for a positive increment the caller passes enough
fuel that the loop guard, not the fuel, ends the sweep. -/
def dip_sweep (inc : ℝ) : ℕ → ℝ → List ℝ
  | 0, _ => []
  | fuel + 1, dip =>
      if dip ≤ π / 2 then dip :: dip_sweep inc fuel (dip + inc) else []

/-- Embeds Fold.profile_plane_dip with an explicit strike (the code computes
the strike itself only when it is not supplied). -/
def profile_plane_dip (poles : List Line) (strike inc : ℝ) : Except PyErr ℝ :=
  let axis := Line.make 0 strike
  let fuel := (⌊π / inc⌋).toNat + 2
  let accepted := (dip_sweep inc fuel (-(π / 2))).filter fun d =>
    decide (count_below poles axis d = half_points poles.length)
  match accepted with
  | [] => .error .valueErrorNoProfilePlane
  | x :: xs => .ok ((xs.foldl (· + ·) x) / (x :: xs).length)

/-- Models the Python list slice l[a:b] for integer bounds: a negative bound
counts from the end of the list, and bounds are clamped to the list. -/
def pySlice {α : Type} (l : List α) (a b : ℤ) : List α :=
  (l.take (if b < 0 then ((l.length : ℤ) + b).toNat else min b.toNat l.length)).drop
    (if a < 0 then ((l.length : ℤ) + a).toNat else min a.toNat l.length)

/-- Embeds Fold.axial_plane with an explicit profile plane (the code computes
the profile plane itself only when it is not supplied). -/
def axial_plane (poles : List Line) (top_limb_proportion : ℝ)
    (profile_plane : Plane) : Except PyErr Plane :=
  let ns_dircos := poles.map fun pole =>
    (pole.rotate_around (Line.make (π / 2) 0) (-profile_plane.strike)).direction_cosines
  let sorted := sortByNorthDesc ns_dircos
  let cutoff := pyRound (top_limb_proportion * poles.length)
  match average_dircos (pySlice sorted (cutoff - 1) (cutoff + 2)) with
  | .error e => .error e
  | .ok avg_midpoint =>
      Plane.from_spanning_lines (Line.from_direction_cosines avg_midpoint)
        profile_plane.pole

/-- Componentwise sum of a list of direction cosines, used to state
spec-level formulas in closed form. -/
def sumDC (l : List DirectionCosines) : DirectionCosines :=
  ⟨(l.map DirectionCosines.north).sum,
   (l.map DirectionCosines.east).sum,
   (l.map DirectionCosines.down).sum⟩

/-- Differences over all unordered pairs of a list, each taken as the later
element minus the earlier one in list order. -/
def pairDiffs : List DirectionCosines → List DirectionCosines
  | [] => []
  | x :: xs => (xs.map fun y => y.sub x) ++ pairDiffs xs

/-- Follows the spec's words for the profile-plane strike: the average pole
is the sum of the pole direction cosines divided by their count; the
reference direction is the horizontal line perpendicular to the average
pole's trend; every unordered pair contributes its sign-aligned difference;
the strike is the trend of the line of the summed differences. -/
def specStrike (poles : List Line) : ℝ :=
  let pdc := poles.map Line.direction_cosines
  let avg_pole := Line.from_direction_cosines ((sumDC pdc).div pdc.length)
  let ref := (Line.make 0 (avg_pole.trend - π / 2)).direction_cosines
  (Line.from_direction_cosines (sumDC ((pairDiffs pdc).map (signFix ref)))).trend

/-- The reference direction of the profile-plane strike computation, phrased
with the plain componentwise sum of the pole direction cosines. -/
def strikeRef (poles : List Line) : DirectionCosines :=
  (Line.make 0
    ((Line.from_direction_cosines (sumDC (poles.map Line.direction_cosines))).trend
      - π / 2)).direction_cosines

/-- Follows the spec's words for the dip search grid: candidate dips from
-pi/2 in steps of the increment, for as long as they do not exceed pi/2. -/
def specDipCandidates (inc : ℝ) : List ℝ :=
  (List.range ((⌊π / inc⌋).toNat + 1)).map fun k : ℕ => -(π / 2) + (k : ℝ) * inc

/-- Canonical lower-hemisphere range for a line's plunge and trend. -/
def isCanonical (l : Line) : Prop :=
  0 ≤ l.plunge ∧ l.plunge ≤ π / 2 ∧ 0 ≤ l.trend ∧ l.trend < 2 * π

/-- Models a Python Line object: an object identity together with the stored
canonical plunge and trend. The Line class defines __hash__ but no __eq__,
so Python equality on Line objects is default object identity. -/
structure PyLineObj where
  objId : ℕ
  value : Line

/-- Models the Python equality operator on Line objects: with no __eq__
defined on the class, CPython falls back to object identity. -/
def pyLineEq (a b : PyLineObj) : Prop := a.objId = b.objId

/-- Models the tuple from which Line.__hash__ computes its hash value. -/
def lineHashKey (l : Line) : ℝ × ℝ := (l.plunge, l.trend)

/-- Rewrites pymod as the fractional part of the quotient, scaled back. -/
theorem pymod_eq_fract (x y : ℝ) (hy : y ≠ 0) :
    pymod x y = y * Int.fract (x / y) := by
  unfold pymod Int.fract
  field_simp

/-- Lower bound of the float modulo for a positive modulus. -/
theorem pymod_nonneg (x y : ℝ) (hy : 0 < y) : 0 ≤ pymod x y := by
  rw [pymod_eq_fract x y hy.ne']
  exact mul_nonneg hy.le (Int.fract_nonneg _)

/-- Upper bound of the float modulo for a positive modulus. -/
theorem pymod_lt (x y : ℝ) (hy : 0 < y) : pymod x y < y := by
  rw [pymod_eq_fract x y hy.ne']
  calc y * Int.fract (x / y) < y * 1 :=
        (mul_lt_mul_left hy).mpr (Int.fract_lt_one _)
    _ = y := mul_one y

/-- Cosine is unchanged by reduction modulo two pi. -/
theorem cos_pymod_two_pi (x : ℝ) : Real.cos (pymod x (2 * π)) = Real.cos x := by
  unfold pymod
  rw [mul_comm (2 * π) ((⌊x / (2 * π)⌋ : ℤ) : ℝ)]
  exact Real.cos_sub_int_mul_two_pi x _

/-- Sine is unchanged by reduction modulo two pi. -/
theorem sin_pymod_two_pi (x : ℝ) : Real.sin (pymod x (2 * π)) = Real.sin x := by
  unfold pymod
  rw [mul_comm (2 * π) ((⌊x / (2 * π)⌋ : ℤ) : ℝ)]
  exact Real.sin_sub_int_mul_two_pi x _

/-- The Line constructor yields a canonical line when the plunge input lies
between -pi/2 and pi/2. -/
theorem make_canonical (p t : ℝ) (h1 : -(π / 2) ≤ p) (h2 : p ≤ π / 2) :
    isCanonical (Line.make p t) := by
  have h2pi : (0 : ℝ) < 2 * π := by positivity
  unfold Line.make isCanonical
  split
  case isTrue h =>
    exact ⟨by simpa using h.le, by linarith, pymod_nonneg _ _ h2pi, pymod_lt _ _ h2pi⟩
  case isFalse h =>
    exact ⟨not_lt.mp h, h2, pymod_nonneg _ _ h2pi, pymod_lt _ _ h2pi⟩

/-- Direction cosines of any line form a unit vector. -/
theorem dc_norm_sq (l : Line) :
    l.direction_cosines.north ^ 2 + l.direction_cosines.east ^ 2
      + l.direction_cosines.down ^ 2 = 1 := by
  unfold Line.direction_cosines
  have h1 := Real.sin_sq_add_cos_sq l.plunge
  have h2 := Real.sin_sq_add_cos_sq l.trend
  simp only
  nlinarith

/-- Lines built from direction cosines are canonical: asin gives a plunge
between -pi/2 and pi/2, which the constructor normalizes. -/
theorem from_dc_canonical (v : DirectionCosines) :
    isCanonical (Line.from_direction_cosines v) :=
  make_canonical _ _ (Real.neg_pi_div_two_le_arcsin _) (Real.arcsin_le_pi_div_two _)

/-- C10: every Line returned by Line.from_direction_cosines, and therefore
every Line returned by Line.rotate_around, satisfies 0 ≤ plunge ≤ π/2 and
0 ≤ trend < 2π. -/
theorem from_dircos_and_rotate_canonical :
    (∀ v : DirectionCosines, isCanonical (Line.from_direction_cosines v)) ∧
    (∀ (l axis : Line) (lat : ℝ), isCanonical (Line.rotate_around l axis lat)) :=
  ⟨fun v => from_dc_canonical v, fun _ _ _ => from_dc_canonical _⟩

/-- C7 counterexample: the constructed Line with plunge input π keeps plunge
π, which violates the claimed invariant plunge ≤ π/2. -/
theorem line_make_not_always_canonical :
    (Line.make π 0).plunge = π ∧ ¬ (Line.make π 0).plunge ≤ π / 2 := by
  have hp := Real.pi_pos
  have h : (Line.make π 0).plunge = π := by
    unfold Line.make
    rw [if_neg (not_lt.mpr hp.le)]
  exact ⟨h, by rw [h]; linarith⟩

/-- C7 (amended): for every plunge input between -π/2 and π/2 and every real
trend, the constructed Line lies in the canonical range 0 ≤ plunge ≤ π/2 and
0 ≤ trend < 2π, and a negative plunge is corrected by negating it and adding
π to the trend before the modulo reduction. -/
theorem line_make_canonical_of_plunge_in_range (p t : ℝ)
    (h1 : -(π / 2) ≤ p) (h2 : p ≤ π / 2) :
    isCanonical (Line.make p t) ∧
      (p < 0 → Line.make p t = ⟨-p, pymod (t + π) (2 * π)⟩) :=
  ⟨make_canonical p t h1 h2, fun h => by unfold Line.make; rw [if_pos h]⟩

/-- Witness for the amended C7 theorem at plunge -π/4, trend 0. -/
theorem line_make_canonical_of_plunge_in_range_witness :
    isCanonical (Line.make (-(π / 4)) 0) ∧
      (-(π / 4) < 0 → Line.make (-(π / 4)) 0 = ⟨-(-(π / 4)), pymod (0 + π) (2 * π)⟩) :=
  line_make_canonical_of_plunge_in_range (-(π / 4)) 0
    (by nlinarith [Real.pi_pos]) (by nlinarith [Real.pi_pos])

/-- Unfolding of the Line constructor for a nonnegative plunge input. -/
theorem make_of_nonneg (p t : ℝ) (h : 0 ≤ p) :
    Line.make p t = ⟨p, pymod t (2 * π)⟩ := by
  unfold Line.make
  rw [if_neg (not_lt.mpr h)]

/-- C9: both projections map every vertical line (plunge π/2) to the origin
and every horizontal line (plunge 0) to the unit circle, and the equal-area
projection maps the line with plunge 0 and trend 0 to the point (0, 1). -/
theorem projection_boundary_points :
    (∀ t : ℝ, EqualAngle.line_coordinates (Line.make (π / 2) t) = (0, 0)
      ∧ EqualArea.line_coordinates (Line.make (π / 2) t) = (0, 0)) ∧
    (∀ t : ℝ,
      (EqualAngle.line_coordinates (Line.make 0 t)).1 ^ 2
          + (EqualAngle.line_coordinates (Line.make 0 t)).2 ^ 2 = 1
      ∧ (EqualArea.line_coordinates (Line.make 0 t)).1 ^ 2
          + (EqualArea.line_coordinates (Line.make 0 t)).2 ^ 2 = 1) ∧
    EqualArea.line_coordinates (Line.make 0 0) = (0, 1) := by
  have hpi := Real.pi_pos
  have hhalf : ∀ t : ℝ, Line.make (π / 2) t = ⟨π / 2, pymod t (2 * π)⟩ :=
    fun t => make_of_nonneg _ t (by positivity)
  have hzero : ∀ t : ℝ, Line.make 0 t = ⟨0, pymod t (2 * π)⟩ :=
    fun t => make_of_nonneg _ t le_rfl
  have hsqrt2 : Real.sqrt 2 * Real.sqrt 2 = 2 := Real.mul_self_sqrt (by norm_num)
  have hone : Real.sqrt 2 * (Real.sqrt 2 / 2) = 1 := by linear_combination hsqrt2 / 2
  refine ⟨fun t => ?_, fun t => ?_, ?_⟩
  · rw [hhalf t]
    unfold EqualAngle.line_coordinates EqualArea.line_coordinates
    simp only
    rw [show π / 4 - π / 2 / 2 = 0 by ring]
    simp
  · rw [hzero t]
    unfold EqualAngle.line_coordinates EqualArea.line_coordinates
    simp only
    rw [show π / 4 - (0 : ℝ) / 2 = π / 4 by ring, Real.tan_pi_div_four,
      Real.sin_pi_div_four]
    constructor
    · have := Real.sin_sq_add_cos_sq (pymod t (2 * π))
      nlinarith
    · rw [hone]
      have := Real.sin_sq_add_cos_sq (pymod t (2 * π))
      nlinarith
  · rw [hzero 0]
    unfold EqualArea.line_coordinates
    simp only
    have hm : pymod 0 (2 * π) = 0 := by
      unfold pymod
      norm_num
    rw [hm, show π / 4 - (0 : ℝ) / 2 = π / 4 by ring, Real.sin_pi_div_four]
    rw [Real.sin_zero, Real.cos_zero, hone]
    norm_num

/-- C8: two distinct Python Line objects carrying the same canonical plunge
and trend do not compare equal, because the Line class defines __hash__ but
no __eq__, so Python equality falls back to object identity. -/
theorem line_eq_is_identity_not_value :
    ¬ pyLineEq ⟨0, Line.make 0 0⟩ ⟨1, Line.make 0 0⟩ ∧
      (PyLineObj.mk 0 (Line.make 0 0)).value = (PyLineObj.mk 1 (Line.make 0 0)).value := by
  unfold pyLineEq
  simp

/-- Normalising an already unit direction-cosine vector is the identity. -/
theorem normalised_of_unit (v : DirectionCosines)
    (h : v.north ^ 2 + v.east ^ 2 + v.down ^ 2 = 1) : v.normalised = v := by
  unfold DirectionCosines.normalised DirectionCosines.norm DirectionCosines.div
  rw [h, Real.sqrt_one]
  ext <;> simp

/-- Direction cosines of a constructed Line: the raw spherical coordinates of
the inputs, negated as a whole when the plunge input was negative. -/
theorem dc_make (p t : ℝ) :
    (Line.make p t).direction_cosines =
      if p < 0 then
        DirectionCosines.neg
          ⟨Real.cos p * Real.cos t, Real.cos p * Real.sin t, Real.sin p⟩
      else ⟨Real.cos p * Real.cos t, Real.cos p * Real.sin t, Real.sin p⟩ := by
  unfold Line.make
  split
  case isTrue h =>
    unfold Line.direction_cosines DirectionCosines.neg
    ext <;> simp only
    · rw [cos_pymod_two_pi, Real.cos_neg, Real.cos_add_pi]
      ring
    · rw [sin_pymod_two_pi, Real.cos_neg, Real.sin_add_pi]
      ring
    · rw [Real.sin_neg]
  case isFalse h =>
    unfold Line.direction_cosines
    ext <;> simp only
    · rw [cos_pymod_two_pi]
    · rw [sin_pymod_two_pi]

/-- Core reconstruction lemma: for a unit vector, the spherical coordinates
asin(down) and rawTrend recover the vector exactly. -/
theorem dcRaw_eq (v : DirectionCosines)
    (h : v.north ^ 2 + v.east ^ 2 + v.down ^ 2 = 1) :
    (⟨Real.cos (Real.arcsin v.down) * Real.cos (rawTrend v),
      Real.cos (Real.arcsin v.down) * Real.sin (rawTrend v),
      Real.sin (Real.arcsin v.down)⟩ : DirectionCosines) = v := by
  rcases v with ⟨n, e, d⟩
  simp only at h
  have hd1 : -1 ≤ d := by nlinarith
  have hd1' : d ≤ 1 := by nlinarith
  have hsin : Real.sin (Real.arcsin d) = d := Real.sin_arcsin hd1 hd1'
  have hcos : Real.cos (Real.arcsin d) = Real.sqrt (n ^ 2 + e ^ 2) := by
    rw [Real.cos_arcsin]
    congr 1
    linarith
  by_cases hn : n = 0
  · subst hn
    by_cases he : 0 ≤ e
    · have ht : rawTrend ⟨0, e, d⟩ = π / 2 := by simp [rawTrend, he]
      ext <;> simp only [ht, hsin, hcos]
      · simp
      · rw [Real.sin_pi_div_two]
        simp only [mul_one]
        rw [show (0 : ℝ) ^ 2 + e ^ 2 = e ^ 2 by ring, Real.sqrt_sq_eq_abs,
          abs_of_nonneg he]
    · have ht : rawTrend ⟨0, e, d⟩ = 3 * π / 2 := by simp [rawTrend, he]
      have h32 : (3 : ℝ) * π / 2 = π / 2 + π := by ring
      ext <;> simp only [ht, hsin, hcos, h32]
      · rw [Real.cos_add_pi, Real.cos_pi_div_two]
        simp
      · rw [Real.sin_add_pi, Real.sin_pi_div_two]
        simp only [mul_neg, mul_one]
        rw [show (0 : ℝ) ^ 2 + e ^ 2 = e ^ 2 by ring, Real.sqrt_sq_eq_abs,
          abs_of_neg (not_le.mp he)]
        ring
  · have hn2 : (0 : ℝ) < n ^ 2 := by positivity
    have hne : (0 : ℝ) < n ^ 2 + e ^ 2 := by nlinarith [sq_nonneg e]
    have hpos : 0 < Real.sqrt (n ^ 2 + e ^ 2) := Real.sqrt_pos.mpr hne
    have h1 : 1 + (e / n) ^ 2 = (n ^ 2 + e ^ 2) / n ^ 2 := by
      field_simp
    have hs : Real.sqrt (1 + (e / n) ^ 2) = Real.sqrt (n ^ 2 + e ^ 2) / |n| := by
      rw [h1, Real.sqrt_div hne.le, Real.sqrt_sq_eq_abs]
    by_cases hn' : n < 0
    · have ht : rawTrend ⟨n, e, d⟩ = Real.arctan (e / n) + π := by
        simp [rawTrend, hn, hn']
      have habs : |n| = -n := abs_of_neg hn'
      ext <;> simp only [ht, hsin, hcos]
      · rw [Real.cos_add_pi, Real.cos_arctan, hs]
        rw [habs]
        field_simp
      · rw [Real.sin_add_pi, Real.sin_arctan, hs]
        rw [habs]
        field_simp
        ring

    · have hpn : 0 < n := lt_of_le_of_ne (not_lt.mp hn') (Ne.symm hn)
      have ht : rawTrend ⟨n, e, d⟩ = Real.arctan (e / n) := by
        simp [rawTrend, hn, hn']
      have habs : |n| = n := abs_of_pos hpn
      ext <;> simp only [ht, hsin, hcos]
      · rw [Real.cos_arctan, hs, habs]
        field_simp
      · rw [Real.sin_arctan, hs, habs]
        field_simp

/-- Direction cosines of the Line built from a unit vector: the vector
itself in the lower hemisphere, and its antipode otherwise. -/
theorem dc_from_dc (v : DirectionCosines)
    (h : v.north ^ 2 + v.east ^ 2 + v.down ^ 2 = 1) :
    (Line.from_direction_cosines v).direction_cosines =
      if 0 ≤ v.down then v else v.neg := by
  unfold Line.from_direction_cosines
  rw [normalised_of_unit v h, dc_make]
  rw [dcRaw_eq v h]
  by_cases hd : 0 ≤ v.down
  · have hna : ¬ Real.arcsin v.down < 0 := by
      rw [Real.arcsin_lt_zero]
      exact not_lt.mpr hd
    rw [if_neg hna, if_pos hd]
  · have hna : Real.arcsin v.down < 0 := Real.arcsin_lt_zero.mpr (not_le.mp hd)
    rw [if_pos hna, if_neg hd]

/-- Negating a direction-cosine vector preserves the unit-length property. -/
theorem neg_unit (v : DirectionCosines)
    (h : v.north ^ 2 + v.east ^ 2 + v.down ^ 2 = 1) :
    v.neg.north ^ 2 + v.neg.east ^ 2 + v.neg.down ^ 2 = 1 := by
  unfold DirectionCosines.neg
  simp only
  nlinarith

/-- C1 (amended): for every unit direction-cosine vector v, the round trip
through Line (from_direction_cosines, direction_cosines, then
from_direction_cosines and direction_cosines again) yields the vector v
itself when its down component is nonnegative, and the antipodal vector -v
when the down component is negative; the round trip is not the identity on
vectors with negative down component. -/
theorem round_trip_direction_cosines (v : DirectionCosines)
    (h : v.north ^ 2 + v.east ^ 2 + v.down ^ 2 = 1) :
    (Line.from_direction_cosines
      ((Line.from_direction_cosines v).direction_cosines)).direction_cosines =
      if 0 ≤ v.down then v else v.neg := by
  rw [dc_from_dc v h]
  by_cases hd : 0 ≤ v.down
  · rw [if_pos hd, dc_from_dc v h, if_pos hd]
  · rw [if_neg hd, dc_from_dc v.neg (neg_unit v h)]
    have hdn : 0 ≤ v.neg.down := by
      unfold DirectionCosines.neg
      simp only
      linarith [not_le.mp hd]
    rw [if_pos hdn]

/-- Witness for the amended C1 theorem at the unit vector (0, 0, 1). -/
theorem round_trip_direction_cosines_witness :
    ((DirectionCosines.mk 0 0 1).north ^ 2 + (DirectionCosines.mk 0 0 1).east ^ 2
        + (DirectionCosines.mk 0 0 1).down ^ 2 = 1) ∧
    (Line.from_direction_cosines
      ((Line.from_direction_cosines ⟨0, 0, 1⟩).direction_cosines)).direction_cosines =
      if 0 ≤ (DirectionCosines.mk 0 0 1).down then DirectionCosines.mk 0 0 1
      else (DirectionCosines.mk 0 0 1).neg :=
  ⟨by norm_num,
   round_trip_direction_cosines ⟨0, 0, 1⟩
     (by show (0 : ℝ) ^ 2 + (0 : ℝ) ^ 2 + (1 : ℝ) ^ 2 = 1; norm_num)⟩

/-- C1 counterexample: at the unit vector (0, 0, -1), which has negative
down component, the round trip through Line yields (0, 0, 1), not the
original vector. -/
theorem round_trip_not_identity_on_lower :
    (Line.from_direction_cosines
      ((Line.from_direction_cosines ⟨0, 0, -1⟩).direction_cosines)).direction_cosines =
      ⟨0, 0, 1⟩ ∧
    (DirectionCosines.mk 0 0 1) ≠ ⟨0, 0, -1⟩ := by
  have hneg : (DirectionCosines.mk 0 0 (-1)).neg = ⟨0, 0, 1⟩ := by
    unfold DirectionCosines.neg
    ext <;> norm_num
  constructor
  · have h1 : (Line.from_direction_cosines ⟨0, 0, -1⟩).direction_cosines =
        ⟨0, 0, 1⟩ := by
      rw [dc_from_dc _ (by show (0 : ℝ) ^ 2 + (0 : ℝ) ^ 2 + (-1 : ℝ) ^ 2 = 1; norm_num)]
      rw [if_neg (show ¬ (0 : ℝ) ≤ -1 by norm_num)]
      exact hneg
    rw [h1]
    rw [dc_from_dc _ (by show (0 : ℝ) ^ 2 + (0 : ℝ) ^ 2 + (1 : ℝ) ^ 2 = 1; norm_num)]
    rw [if_pos (show (0 : ℝ) ≤ 1 by norm_num)]
  · intro hc
    have := congrArg DirectionCosines.down hc
    simp only at this
    norm_num at this

/-- Double negation of a direction-cosine vector is the identity. -/
theorem dc_neg_neg (v : DirectionCosines) : v.neg.neg = v := by
  unfold DirectionCosines.neg
  ext <;> simp

/-- The cross product of two unit vectors vanishes exactly when the vectors
are equal or opposite. -/
theorem cross_eq_zero_iff_unit (v w : DirectionCosines)
    (hv : v.north ^ 2 + v.east ^ 2 + v.down ^ 2 = 1)
    (hw : w.north ^ 2 + w.east ^ 2 + w.down ^ 2 = 1) :
    v.cross_product w = DirectionCosines.zero ↔ (v = w ∨ v = w.neg) := by
  rcases v with ⟨a, b, c⟩
  rcases w with ⟨x, y, z⟩
  simp only at hv hw
  unfold DirectionCosines.cross_product DirectionCosines.neg DirectionCosines.zero
  constructor
  · intro hc
    rw [DirectionCosines.mk.injEq] at hc
    obtain ⟨h1, h2, h3⟩ := hc
    have key : (b * z - c * y) ^ 2 + (c * x - a * z) ^ 2 + (a * y - b * x) ^ 2 =
        (a ^ 2 + b ^ 2 + c ^ 2) * (x ^ 2 + y ^ 2 + z ^ 2)
          - (a * x + b * y + c * z) ^ 2 := by
      ring
    rw [h1, h2, h3, hv, hw] at key
    have hfac : (a * x + b * y + c * z - 1) * (a * x + b * y + c * z + 1) = 0 := by
      linear_combination key
    have sqz : ∀ u : ℝ, u ^ 2 ≤ 0 → u = 0 := fun u hu =>
      pow_eq_zero_iff two_ne_zero |>.mp (le_antisymm hu (sq_nonneg u))
    rcases mul_eq_zero.mp hfac with ht | ht
    · left
      have hz : (a - x) ^ 2 + (b - y) ^ 2 + (c - z) ^ 2 = 0 := by
        linear_combination hv + hw - 2 * ht
      have e1 : a - x = 0 := sqz _ (by nlinarith [sq_nonneg (b - y), sq_nonneg (c - z)])
      have e2 : b - y = 0 := sqz _ (by nlinarith [sq_nonneg (a - x), sq_nonneg (c - z)])
      have e3 : c - z = 0 := sqz _ (by nlinarith [sq_nonneg (a - x), sq_nonneg (b - y)])
      rw [DirectionCosines.mk.injEq]
      exact ⟨by linarith, by linarith, by linarith⟩
    · right
      have hz : (a + x) ^ 2 + (b + y) ^ 2 + (c + z) ^ 2 = 0 := by
        linear_combination hv + hw + 2 * ht
      have e1 : a + x = 0 := sqz _ (by nlinarith [sq_nonneg (b + y), sq_nonneg (c + z)])
      have e2 : b + y = 0 := sqz _ (by nlinarith [sq_nonneg (a + x), sq_nonneg (b + y), sq_nonneg (c + z)])
      have e3 : c + z = 0 := sqz _ (by nlinarith [sq_nonneg (a + x), sq_nonneg (b + y)])
      rw [DirectionCosines.mk.injEq]
      exact ⟨by linarith, by linarith, by linarith⟩
  · intro hc
    rcases hc with h | h <;> rw [DirectionCosines.mk.injEq] at h <;>
      obtain ⟨e1, e2, e3⟩ := h <;> subst e1 <;> subst e2 <;> subst e3 <;>
      (ext <;> simp only <;> ring)

/-- The spanning-plane assertion fires exactly when the two direction-cosine
tuples are equal or opposite. -/
theorem span_error_iff (d1 d2 : DirectionCosines) :
    Plane.from_spanning_direction_cosines d1 d2 = .error .assertionError ↔
      (d1 = d2 ∨ d1 = d2.neg) := by
  unfold Plane.from_spanning_direction_cosines
  split
  case isTrue h => simp [h]
  case isFalse h => simp [h]

/-- C4: Plane.from_spanning_lines fails with the assertion error exactly when
the cross product of the direction cosines of the two lines is the zero
vector; in particular spanning a line with itself, or with its antipode,
fails with this error. -/
theorem from_spanning_parallel_error :
    (∀ l1 l2 : Line,
      Plane.from_spanning_lines l1 l2 = .error .assertionError ↔
        l1.direction_cosines.cross_product l2.direction_cosines
          = DirectionCosines.zero) ∧
    (∀ l : Line, Plane.from_spanning_lines l l = .error .assertionError) ∧
    (∀ l : Line, Plane.from_spanning_lines l (antipode l) = .error .assertionError) := by
  refine ⟨fun l1 l2 => ?_, fun l => ?_, fun l => ?_⟩
  · rw [Plane.from_spanning_lines, span_error_iff]
    exact (cross_eq_zero_iff_unit _ _ (dc_norm_sq l1) (dc_norm_sq l2)).symm
  · exact (span_error_iff _ _).mpr (Or.inl rfl)
  · have hu := neg_unit _ (dc_norm_sq l)
    have hdc := dc_from_dc (l.direction_cosines.neg) hu
    apply (span_error_iff _ _).mpr
    show l.direction_cosines = (antipode l).direction_cosines ∨
      l.direction_cosines = (antipode l).direction_cosines.neg
    unfold antipode
    rw [hdc]
    split
    · exact Or.inr (dc_neg_neg _).symm
    · exact Or.inl (dc_neg_neg _).symm

/-- The float modulo is the identity on arguments already inside the range. -/
theorem pymod_eq_self (x y : ℝ) (h1 : 0 ≤ x) (h2 : x < y) (hy : 0 < y) :
    pymod x y = x := by
  unfold pymod
  have hf : ⌊x / y⌋ = 0 := by
    rw [Int.floor_eq_zero_iff]
    exact Set.mem_Ico.mpr ⟨div_nonneg h1 hy.le, (div_lt_one hy).mpr h2⟩
  rw [hf]
  simp

/-- C5: rotating the horizontal line Line(0, 0) about the axis
Line(π/4, 3π/2) by the angle π yields the line Line(0, π) on the opposite
horizon point; in the exact-real model the boundary down component is
exactly zero, so the near-zero clamp and the hemisphere correction leave the
rotated vector unchanged. -/
theorem rotate_boundary_case :
    Line.rotate_around (Line.make 0 0) (Line.make (π / 4) (3 * π / 2)) π =
      Line.make 0 π := by
  have hpi := Real.pi_pos
  have hL : Line.make 0 0 = ⟨0, 0⟩ := by
    rw [make_of_nonneg 0 0 le_rfl, pymod_eq_self 0 (2 * π) le_rfl (by linarith) (by linarith)]
  have hax : Line.make (π / 4) (3 * π / 2) = ⟨π / 4, 3 * π / 2⟩ := by
    rw [make_of_nonneg _ _ (by positivity),
      pymod_eq_self (3 * π / 2) (2 * π) (by positivity) (by linarith) (by linarith)]
  have haxdc : (Line.mk (π / 4) (3 * π / 2)).direction_cosines =
      ⟨0, -(Real.sqrt 2 / 2), Real.sqrt 2 / 2⟩ := by
    unfold Line.direction_cosines
    simp only
    rw [show (3 : ℝ) * π / 2 = π / 2 + π by ring, Real.cos_add_pi, Real.sin_add_pi,
      Real.cos_pi_div_two, Real.sin_pi_div_two, Real.cos_pi_div_four,
      Real.sin_pi_div_four]
    ext <;> simp
  have huL : (Line.mk 0 0).direction_cosines = ⟨1, 0, 0⟩ := by
    unfold Line.direction_cosines
    ext <;> simp
  rw [hL, hax]
  unfold Line.rotate_around
  rw [haxdc, huL, Real.cos_pi, Real.sin_pi]
  norm_num
  unfold Line.from_direction_cosines
  have hnorm : (DirectionCosines.mk (-1) 0 0).normalised = ⟨-1, 0, 0⟩ := by
    unfold DirectionCosines.normalised DirectionCosines.norm DirectionCosines.div
    simp only
    norm_num
  rw [hnorm]
  have ht : rawTrend ⟨-1, 0, 0⟩ = π := by
    unfold rawTrend
    simp only
    rw [if_neg (show ¬ (-1 : ℝ) = 0 by norm_num), if_pos (show (-1 : ℝ) < 0 by norm_num)]
    norm_num
  show Line.make (Real.arcsin (DirectionCosines.mk (-1) 0 0).down)
      (rawTrend ⟨-1, 0, 0⟩) = Line.make 0 π
  rw [ht]
  norm_num [Real.arcsin_zero]

/-- The dip sweep stops immediately once the dip exceeds π/2. -/
theorem dip_sweep_of_gt (inc : ℝ) (F : ℕ) (dip : ℝ) (h : ¬ dip ≤ π / 2) :
    dip_sweep inc F dip = [] := by
  cases F <;> simp [dip_sweep, h]

/-- Head-and-tail form of mapping over an initial segment of the naturals. -/
theorem range_map_succ_head {α : Type} (f : ℕ → α) (n : ℕ) :
    (List.range (n + 1)).map f = f 0 :: (List.range n).map fun k => f (k + 1) := by
  rw [List.range_succ_eq_map, List.map_cons, List.map_map]
  rfl

/-- Closed form of the dip-sweeping loop: with a positive increment and
enough fuel it produces exactly the arithmetic grid of candidate dips. -/
theorem dip_sweep_eq (inc : ℝ) (hinc : 0 < inc) :
    ∀ (F : ℕ) (dip : ℝ), dip ≤ π / 2 →
      (⌊(π / 2 - dip) / inc⌋).toNat + 1 ≤ F →
      dip_sweep inc F dip =
        (List.range ((⌊(π / 2 - dip) / inc⌋).toNat + 1)).map
          fun k : ℕ => dip + (k : ℝ) * inc := by
  intro F
  induction F with
  | zero => exact fun dip _ hF => absurd hF (by omega)
  | succ F ih =>
    intro dip hdip hF
    have hge : (0 : ℝ) ≤ π / 2 - dip := by linarith
    have hfl0 : 0 ≤ ⌊(π / 2 - dip) / inc⌋ :=
      Int.floor_nonneg.mpr (div_nonneg hge hinc.le)
    simp only [dip_sweep, if_pos hdip]
    by_cases hnext : dip + inc ≤ π / 2
    · have hM1 : 1 ≤ ⌊(π / 2 - dip) / inc⌋ := by
        apply Int.le_floor.mpr
        rw [Int.cast_one]
        exact (one_le_div hinc).mpr (by linarith)
      have hMnext : ⌊(π / 2 - (dip + inc)) / inc⌋ = ⌊(π / 2 - dip) / inc⌋ - 1 := by
        rw [show (π / 2 - (dip + inc)) / inc = (π / 2 - dip) / inc - (1 : ℤ) by
          push_cast
          rw [div_sub_one hinc.ne']
          congr 1
          ring]
        exact Int.floor_sub_int _ _
      have ihx := ih (dip + inc) hnext (by rw [hMnext]; omega)
      rw [hMnext] at ihx
      rw [ihx]
      have hMt : (⌊(π / 2 - dip) / inc⌋).toNat + 1 =
          ((⌊(π / 2 - dip) / inc⌋ - 1).toNat + 1) + 1 := by omega
      conv_rhs => rw [hMt, range_map_succ_head]
      congr 1
      · norm_num
      · apply List.map_congr_left
        intro k _
        push_cast
        ring
    · have hM0 : ⌊(π / 2 - dip) / inc⌋ = 0 := by
        rw [Int.floor_eq_zero_iff]
        refine Set.mem_Ico.mpr ⟨div_nonneg hge hinc.le, ?_⟩
        exact (div_lt_one hinc).mpr (by linarith [not_le.mp hnext])
      rw [dip_sweep_of_gt inc F _ hnext, hM0]
      rw [show ((0 : ℤ).toNat + 1) = 0 + 1 from rfl, range_map_succ_head]
      simp

/-- Folding addition over a list from a seed equals the seed plus the sum. -/
theorem foldl_add_eq_sum (xs : List ℝ) (x : ℝ) :
    xs.foldl (· + ·) x = x + xs.sum := by
  induction xs generalizing x with
  | nil => simp
  | cons y ys ih =>
    simp only [List.foldl_cons, List.sum_cons, ih]
    ring

/-- C3: for every pole population, strike, and positive increment, the
profile-plane dip is the average of all candidate dips on the grid from
-π/2 to π/2 in steps of the increment for which exactly round(n/2) poles
classify left of the candidate plane, and the distinct no-profile-plane
error, carrying no result, is returned exactly when no candidate dip
achieves that split. -/
theorem profile_plane_dip_spec (poles : List Line) (strike inc : ℝ)
    (hinc : 0 < inc) :
    profile_plane_dip poles strike inc =
      (let accepted := (specDipCandidates inc).filter fun d =>
        decide (count_below poles (Line.make 0 strike) d = half_points poles.length)
       if accepted = [] then Except.error PyErr.valueErrorNoProfilePlane
       else Except.ok (accepted.sum / accepted.length)) := by
  have hpi := Real.pi_pos
  have hfl : ⌊(π / 2 - (-(π / 2))) / inc⌋ = ⌊π / inc⌋ := by
    rw [show (π / 2 - (-(π / 2))) / inc = π / inc by ring]
  have hsweep : dip_sweep inc ((⌊π / inc⌋).toNat + 2) (-(π / 2)) =
      specDipCandidates inc := by
    have hb := dip_sweep_eq inc hinc ((⌊π / inc⌋).toNat + 2) (-(π / 2))
      (by linarith) (by rw [hfl]; omega)
    rw [hfl] at hb
    exact hb
  unfold profile_plane_dip
  simp only [hsweep]
  rcases hacc : (specDipCandidates inc).filter (fun d =>
      decide (count_below poles (Line.make 0 strike) d = half_points poles.length))
    with _ | ⟨x, xs⟩
  · simp
  · rw [if_neg (List.cons_ne_nil x xs)]
    simp [foldl_add_eq_sum]

/-- Witness for the C3 theorem at the empty population, strike 0 and
increment 1. -/
theorem profile_plane_dip_spec_witness :
    (0 : ℝ) < 1 ∧
    profile_plane_dip [] 0 1 =
      (let accepted := (specDipCandidates 1).filter fun d =>
        decide (count_below [] (Line.make 0 0) d = half_points (List.length ([] : List Line)))
       if accepted = [] then Except.error PyErr.valueErrorNoProfilePlane
       else Except.ok (accepted.sum / accepted.length)) :=
  ⟨by norm_num, profile_plane_dip_spec [] 0 1 (by norm_num)⟩

/-- The componentwise sum of the empty list is the zero vector. -/
theorem sumDC_nil : sumDC [] = DirectionCosines.zero := by
  unfold sumDC DirectionCosines.zero
  simp

/-- The componentwise sum of a cons. -/
theorem sumDC_cons (x : DirectionCosines) (xs : List DirectionCosines) :
    sumDC (x :: xs) = x.add (sumDC xs) := by
  unfold sumDC DirectionCosines.add
  simp

/-- Adding the zero vector is the identity. -/
theorem add_zero_dc (x : DirectionCosines) : x.add DirectionCosines.zero = x := by
  unfold DirectionCosines.add DirectionCosines.zero
  ext <;> simp

/-- Vector addition of direction cosines is associative. -/
theorem add_assoc_dc (x y z : DirectionCosines) :
    (x.add y).add z = x.add (y.add z) := by
  unfold DirectionCosines.add
  ext <;> (simp only; ring)

/-- Folding vector addition from a seed equals the seed plus the sum. -/
theorem foldl_add_eq_sumDC (xs : List DirectionCosines) (x : DirectionCosines) :
    xs.foldl DirectionCosines.add x = x.add (sumDC xs) := by
  induction xs generalizing x with
  | nil => rw [List.foldl_nil, sumDC_nil, add_zero_dc]
  | cons y ys ih =>
    rw [List.foldl_cons, ih, sumDC_cons, add_assoc_dc]

/-- Closed form of average on a non-empty list of direction cosines. -/
theorem average_dircos_eq (l : List DirectionCosines) (hne : l ≠ []) :
    average_dircos l = .ok ((sumDC l).div l.length) := by
  cases l with
  | nil => exact absurd rfl hne
  | cons x xs =>
    show Except.ok ((xs.foldl DirectionCosines.add x).div ((x :: xs).length : ℝ))
      = Except.ok ((sumDC (x :: xs)).div ((x :: xs).length : ℝ))
    rw [foldl_add_eq_sumDC, sumDC_cons]

/-- Python slicing with nonnegative in-range bounds is plain drop-and-take. -/
theorem pySlice_of_nonneg {α : Type} (l : List α) (a b : ℤ)
    (ha : 0 ≤ a) (hb : 0 ≤ b) (ha2 : a.toNat ≤ l.length) :
    pySlice l a b =
      (l.drop a.toNat).take (min b.toNat l.length - a.toNat) := by
  unfold pySlice
  rw [if_neg (not_lt.mpr ha), if_neg (not_lt.mpr hb),
    min_eq_left ha2, List.drop_take]

/-- Python slicing from index -1 to 2 of a four-element list is empty: the
negative start counts from the end of the list, past the stop index. -/
theorem pySlice_neg_one_two {α : Type} (l : List α) (h4 : l.length = 4) :
    pySlice l (-1) 2 = [] := by
  unfold pySlice
  rw [if_pos (show (-1 : ℤ) < 0 by norm_num),
    if_neg (show ¬ (2 : ℤ) < 0 by norm_num), h4]
  apply List.drop_eq_nil_of_le
  rw [List.length_take, h4]
  omega

/-- The north-descending sort preserves the list length. -/
theorem length_sortByNorthDesc (l : List DirectionCosines) :
    (sortByNorthDesc l).length = l.length := by
  unfold sortByNorthDesc
  exact List.length_mergeSort ..

/-- Python round never exceeds the floor plus one. -/
theorem pyRound_le_floor_add_one (x : ℝ) : pyRound x ≤ ⌊x⌋ + 1 := by
  unfold pyRound
  split
  · split <;> omega
  · rw [round_eq]
    have : ⌊x + 1 / 2⌋ ≤ ⌊x + 1⌋ := Int.floor_le_floor (by linarith)
    rw [Int.floor_add_one] at this
    omega

/-- C6 (amended): for a population of n ≥ 1 poles and a limb proportion p
in (0,1) whose cutoff round(p·n) is at least 1, axial_plane averages the
rotated, north-to-south-sorted pole direction cosines over the window from
cutoff-1 through cutoff+1 clamped to valid indices, and returns the plane
spanning the resulting midpoint line and the profile plane's pole; when the
cutoff is 0 the Python slice wraps its negative start around instead of
clamping, so that case is excluded. -/
theorem axial_plane_spec_window (poles : List Line) (p : ℝ) (pp : Plane)
    (hn : 1 ≤ poles.length) (hp0 : 0 < p) (hp1 : p < 1)
    (hcut : 1 ≤ pyRound (p * poles.length)) :
    axial_plane poles p pp =
      (let sorted := sortByNorthDesc (poles.map fun pole =>
        (pole.rotate_around (Line.make (π / 2) 0) (-pp.strike)).direction_cosines)
       let c := (pyRound (p * poles.length)).toNat
       let window := (sorted.drop (c - 1)).take (min (c + 2) sorted.length - (c - 1))
       Plane.from_spanning_lines
         (Line.from_direction_cosines ((sumDC window).div window.length)) pp.pole) := by
  have hn0 : (0 : ℝ) < poles.length := by
    have : 0 < poles.length := by omega
    exact_mod_cast this
  simp only [axial_plane]
  set cz := pyRound (p * poles.length) with hcz
  set sorted := sortByNorthDesc (poles.map fun pole =>
    (pole.rotate_around (Line.make (π / 2) 0) (-pp.strike)).direction_cosines)
    with hsorted
  have hczn : cz ≤ (poles.length : ℤ) := by
    have hlt : (p * poles.length : ℝ) < ((poles.length : ℤ) : ℝ) := by
      push_cast
      nlinarith
    have h1 := pyRound_le_floor_add_one (p * poles.length)
    have h2 : ⌊(p * poles.length : ℝ)⌋ < (poles.length : ℤ) := Int.floor_lt.mpr hlt
    rw [hcz]
    omega
  have hslen : sorted.length = poles.length := by
    rw [hsorted, length_sortByNorthDesc, List.length_map]
  have e1 : (cz - 1).toNat = cz.toNat - 1 := by omega
  have e2 : (cz + 2).toNat = cz.toNat + 2 := by omega
  have hslice : pySlice sorted (cz - 1) (cz + 2) =
      (sorted.drop (cz.toNat - 1)).take
        (min (cz.toNat + 2) sorted.length - (cz.toNat - 1)) := by
    rw [pySlice_of_nonneg sorted _ _ (by omega) (by omega)
      (by rw [e1, hslen]; omega), e1, e2]
  have hwpos : 0 < ((sorted.drop (cz.toNat - 1)).take
      (min (cz.toNat + 2) sorted.length - (cz.toNat - 1))).length := by
    rw [List.length_take, List.length_drop, hslen]
    omega
  have hwne := List.length_pos.mp hwpos
  rw [hslice, average_dircos_eq _ hwne]

/-- C6 counterexample: with four identical poles and limb proportion 1/10 the
cutoff is round(0.4) = 0, the Python slice [-1:2] of the four sorted poles is
empty because the negative start wraps to the end of the list, and
axial_plane raises StopIteration instead of producing a midpoint from a
clamped window. -/
theorem axial_plane_raises_at_cutoff_zero :
    axial_plane (List.replicate 4 (Line.make 0 0)) (1 / 10) (Plane.make 0 0) =
      .error .stopIteration := by
  have hround : pyRound ((1 / 10 : ℝ) * ((List.replicate 4 (Line.make 0 0)).length : ℝ)) = 0 := by
    have h25 : (1 / 10 : ℝ) * ((4 : ℕ) : ℝ) = 2 / 5 := by norm_num
    rw [List.length_replicate, h25]
    unfold pyRound
    have hfl : ⌊(2 / 5 : ℝ)⌋ = 0 := by
      rw [Int.floor_eq_zero_iff]
      exact Set.mem_Ico.mpr ⟨by norm_num, by norm_num⟩
    have hfr : Int.fract (2 / 5 : ℝ) = 2 / 5 := by
      unfold Int.fract
      rw [hfl]
      norm_num
    rw [if_neg (by rw [hfr]; norm_num), round_eq,
      show (2 / 5 : ℝ) + 1 / 2 = 9 / 10 by norm_num]
    rw [Int.floor_eq_zero_iff]
    exact Set.mem_Ico.mpr ⟨by norm_num, by norm_num⟩
  simp only [axial_plane]
  rw [hround, show ((0 : ℤ) - 1) = -1 by norm_num, show ((0 : ℤ) + 2) = 2 by norm_num]
  rw [pySlice_neg_one_two _ (by
    rw [length_sortByNorthDesc, List.length_map, List.length_replicate])]
  rfl

/-- Witness for the amended C6 theorem at four identical poles, limb
proportion 1/2 and the plane 000/00 as profile plane. -/
theorem axial_plane_spec_window_witness :
    axial_plane (List.replicate 4 (Line.make 0 0)) (1 / 2) (Plane.make 0 0) =
      (let sorted := sortByNorthDesc ((List.replicate 4 (Line.make 0 0)).map fun pole =>
        (pole.rotate_around (Line.make (π / 2) 0) (-(Plane.make 0 0).strike)).direction_cosines)
       let c := (pyRound ((1 / 2 : ℝ) * (List.replicate 4 (Line.make 0 0)).length)).toNat
       let window := (sorted.drop (c - 1)).take (min (c + 2) sorted.length - (c - 1))
       Plane.from_spanning_lines
         (Line.from_direction_cosines ((sumDC window).div window.length))
         (Plane.make 0 0).pole) :=
  axial_plane_spec_window (List.replicate 4 (Line.make 0 0)) (1 / 2) (Plane.make 0 0)
    (by rw [List.length_replicate]; omega)
    (by norm_num)
    (by norm_num)
    (by
      have h2 : (1 / 2 : ℝ) * (((List.replicate 4 (Line.make 0 0)).length : ℕ) : ℝ)
          = ((2 : ℤ) : ℝ) := by
        rw [List.length_replicate]
        norm_num
      rw [h2]
      unfold pyRound
      rw [if_neg (by rw [Int.fract_intCast]; norm_num), round_intCast]
      norm_num)

/-- North component of a vector sum. -/
@[simp]
theorem add_north (a b : DirectionCosines) :
    (a.add b).north = a.north + b.north := rfl

/-- East component of a vector sum. -/
@[simp]
theorem add_east (a b : DirectionCosines) :
    (a.add b).east = a.east + b.east := rfl

/-- Down component of a vector sum. -/
@[simp]
theorem add_down (a b : DirectionCosines) :
    (a.add b).down = a.down + b.down := rfl

/-- Summing a non-empty iterable of direction cosines gives the plain sum. -/
theorem sum_iterable_eq (l : List DirectionCosines) (hne : l ≠ []) :
    sum_iterable l = .ok (sumDC l) := by
  cases l with
  | nil => exact absurd rfl hne
  | cons x xs =>
    show Except.ok (xs.foldl DirectionCosines.add x) = Except.ok (sumDC (x :: xs))
    rw [foldl_add_eq_sumDC, sumDC_cons]

/-- The componentwise sum is invariant under permutation. -/
theorem sumDC_perm {l l' : List DirectionCosines} (h : l.Perm l') :
    sumDC l = sumDC l' := by
  unfold sumDC
  rw [(h.map DirectionCosines.north).sum_eq, (h.map DirectionCosines.east).sum_eq,
    (h.map DirectionCosines.down).sum_eq]

/-- The componentwise sum distributes over append. -/
theorem sumDC_append (a b : List DirectionCosines) :
    sumDC (a ++ b) = (sumDC a).add (sumDC b) := by
  unfold sumDC
  ext <;> simp

/-- Unfolding equation for the pair differences of a cons. -/
theorem pairDiffs_cons (x : DirectionCosines) (xs : List DirectionCosines) :
    pairDiffs (x :: xs) = (xs.map fun y => y.sub x) ++ pairDiffs xs := rfl

/-- Opposite-orientation difference is the negation. -/
theorem sub_neg_dc (x y : DirectionCosines) : y.sub x = (x.sub y).neg := by
  unfold DirectionCosines.sub DirectionCosines.neg
  ext <;> (simp only; ring)

/-- The dot product with a negated vector is the negated dot product. -/
theorem dot_neg_dc (r v : DirectionCosines) :
    r.dot_product v.neg = -(r.dot_product v) := by
  unfold DirectionCosines.dot_product DirectionCosines.neg
  simp only
  ring

/-- The sign reorientation does not depend on the orientation of a pair
difference whose dot product with the reference is nonzero. -/
theorem signFix_sub_comm (ref x y : DirectionCosines)
    (h : x = y ∨ ref.dot_product (x.sub y) ≠ 0) :
    signFix ref (x.sub y) = signFix ref (y.sub x) := by
  rcases h with h | h
  · subst h
    rfl
  · unfold signFix
    have hd : ref.dot_product (y.sub x) = -(ref.dot_product (x.sub y)) := by
      rw [sub_neg_dc x y, dot_neg_dc]
    rcases lt_or_gt_of_ne h with hlt | hgt
    · rw [if_neg (not_le.mpr hlt), if_pos (by rw [hd]; linarith), sub_neg_dc x y]
    · rw [if_pos hgt.le, if_neg (by rw [hd]; linarith), sub_neg_dc x y, dc_neg_neg]

/-- The down-descending sort is a permutation of its input. -/
theorem sortByDownDesc_perm (l : List DirectionCosines) :
    (sortByDownDesc l).Perm l := by
  unfold sortByDownDesc
  exact List.mergeSort_perm l _

/-- On a duplicate-free pole list, the seen-list membership loop of
profile_plane_strike generates exactly the structural unordered-pair
differences of the remaining list. -/
theorem diffLoop_eq_pairDiffs :
    ∀ (rest seen : List DirectionCosines), (seen ++ rest).Nodup →
      diffLoop (seen ++ rest) seen rest = pairDiffs rest := by
  intro rest
  induction rest with
  | nil => intro seen _; rfl
  | cons pole rest ih =>
    intro seen hnd
    have hassoc : seen ++ pole :: rest = (seen ++ [pole]) ++ rest := by simp
    have hnd' : ((seen ++ [pole]) ++ rest).Nodup := by rw [← hassoc]; exact hnd
    have hfilter : (seen ++ pole :: rest).filter
        (fun p => decide (¬ p ∈ seen ++ [pole])) = rest := by
      rw [hassoc, List.filter_append]
      have h1 : ((seen ++ [pole]).filter fun p => decide (¬ p ∈ seen ++ [pole])) = [] := by
        rw [List.filter_eq_nil_iff]
        intro a ha
        simp [ha]
      have h2 : (rest.filter fun p => decide (¬ p ∈ seen ++ [pole])) = rest := by
        rw [List.filter_eq_self]
        intro a ha
        have hdisj := (List.nodup_append.mp hnd').2.2
        have : ¬ a ∈ seen ++ [pole] := fun hmem => hdisj hmem ha
        simp [this]
      rw [h1, h2, List.nil_append]
    simp only [diffLoop]
    rw [hfilter, pairDiffs_cons]
    congr 1
    rw [hassoc]
    exact ih (seen ++ [pole]) hnd'

/-- The sign-aligned sum of all pair differences is invariant under
permutation of the pole list, provided no pair difference is orthogonal to
the reference direction. -/
theorem signSum_perm (ref : DirectionCosines) {l l' : List DirectionCosines}
    (h : l.Perm l') :
    (∀ x ∈ l, ∀ y ∈ l, x = y ∨ ref.dot_product (x.sub y) ≠ 0) →
    sumDC ((pairDiffs l).map (signFix ref)) =
      sumDC ((pairDiffs l').map (signFix ref)) := by
  induction h with
  | nil => intro _; rfl
  | cons x hperm ih =>
    intro H
    rw [pairDiffs_cons, pairDiffs_cons, List.map_append, List.map_append,
      sumDC_append, sumDC_append]
    congr 1
    · exact sumDC_perm ((hperm.map _).map _)
    · exact ih fun a ha b hb =>
        H a (List.mem_cons_of_mem x ha) b (List.mem_cons_of_mem x hb)
  | swap x y l =>
    intro H
    have hfe : signFix ref (x.sub y) = signFix ref (y.sub x) :=
      signFix_sub_comm ref x y
        (H x (by simp) y (by simp))
    simp only [pairDiffs_cons, List.map_cons, List.map_append, sumDC_append,
      sumDC_cons]
    rw [hfe]
    ext <;> (simp only [add_north, add_east, add_down]; ring)
  | trans h1 _ ih1 ih2 =>
    intro H
    refine (ih1 H).trans (ih2 ?_)
    intro a ha b hb
    exact H a (h1.mem_iff.mpr ha) b (h1.mem_iff.mpr hb)

/-- Normalisation is invariant under division by a positive scalar. -/
theorem normalised_div_pos (v : DirectionCosines) (k : ℝ) (hk : 0 < k) :
    (v.div k).normalised = v.normalised := by
  have hnorm : (v.div k).norm = v.norm / k := by
    unfold DirectionCosines.norm DirectionCosines.div
    simp only
    rw [div_pow, div_pow, div_pow, div_add_div_same, div_add_div_same,
      Real.sqrt_div (by positivity), Real.sqrt_sq_eq_abs, abs_of_pos hk]
  unfold DirectionCosines.normalised
  rw [hnorm]
  unfold DirectionCosines.div
  ext <;> (simp only; rw [div_div_eq_mul_div, div_mul_cancel₀ _ hk.ne'])

/-- Lines from direction cosines are invariant under positive scaling. -/
theorem from_dc_div_pos (v : DirectionCosines) (k : ℝ) (hk : 0 < k) :
    Line.from_direction_cosines (v.div k) = Line.from_direction_cosines v := by
  unfold Line.from_direction_cosines
  rw [normalised_div_pos v k hk]

/-- C2 (amended): for every population of at least two poles whose direction
cosines are pairwise distinct and whose pair differences are never
orthogonal to the reference direction (the horizontal line perpendicular to
the average pole's trend), profile_plane_strike returns the trend of the
Line obtained by summing the sign-aligned differences of every unordered
pair of poles, with the average pole the sum of the pole direction cosines
divided by their count. -/
theorem profile_plane_strike_spec (poles : List Line)
    (h2 : 2 ≤ poles.length)
    (hnd : (poles.map Line.direction_cosines).Nodup)
    (hdot : ∀ x ∈ poles.map Line.direction_cosines,
      ∀ y ∈ poles.map Line.direction_cosines,
      x = y ∨ (strikeRef poles).dot_product (x.sub y) ≠ 0) :
    profile_plane_strike poles = .ok (specStrike poles) := by
  simp only [profile_plane_strike, specStrike]
  set pdc := poles.map Line.direction_cosines with hpdc
  set srt := sortByDownDesc pdc with hsrt
  have hperm : srt.Perm pdc := sortByDownDesc_perm pdc
  have hlen : srt.length = pdc.length := hperm.length_eq
  have hpdl : 2 ≤ pdc.length := by rw [hpdc, List.length_map]; exact h2
  have hsrtne : srt ≠ [] := by
    intro hcon
    rw [hcon] at hlen
    simp at hlen
    omega
  simp only [sum_iterable_eq srt hsrtne]
  have hsum : sumDC srt = sumDC pdc := sumDC_perm hperm
  rw [hsum]
  have hsrtnd : srt.Nodup := (hperm.nodup_iff).mpr hnd
  have hdiff : diffLoop srt [] srt = pairDiffs srt := by
    have h := diffLoop_eq_pairDiffs srt []
    simp only [List.nil_append] at h
    exact h hsrtnd
  rw [hdiff]
  have hk : (0 : ℝ) < (pdc.length : ℝ) := by
    have : 0 < pdc.length := by omega
    exact_mod_cast this
  rw [from_dc_div_pos (sumDC pdc) (pdc.length : ℝ) hk]
  have href : (Line.make 0
      ((Line.from_direction_cosines (sumDC pdc)).trend - π / 2)).direction_cosines
      = strikeRef poles := rfl
  rw [href]
  obtain ⟨a, ta, h1⟩ := List.exists_cons_of_ne_nil hsrtne
  have hta : ta ≠ [] := by
    intro hc
    rw [h1, hc] at hlen
    simp at hlen
    omega
  obtain ⟨b, t, hbt⟩ := List.exists_cons_of_ne_nil hta
  have hsrteq : srt = a :: b :: t := by rw [h1, hbt]
  have hdne : ((pairDiffs srt).map (signFix (strikeRef poles))) ≠ [] := by
    rw [hsrteq]
    simp [pairDiffs_cons]
  simp only [sum_iterable_eq _ hdne]
  have hsign : sumDC ((pairDiffs srt).map (signFix (strikeRef poles))) =
      sumDC ((pairDiffs pdc).map (signFix (strikeRef poles))) :=
    signSum_perm (strikeRef poles) hperm fun x hx y hy =>
      hdot x (hperm.mem_iff.mp hx) y (hperm.mem_iff.mp hy)
  rw [hsign]

/-- C2 counterexample: on the singleton population there are no pole pairs,
so the inner sum ranges over an empty iterable and profile_plane_strike
raises StopIteration instead of returning a trend. -/
theorem profile_plane_strike_singleton_raises :
    profile_plane_strike [Line.make 0 0] = .error .stopIteration := by
  have hsingle : sortByDownDesc [(Line.make 0 0).direction_cosines] =
      [(Line.make 0 0).direction_cosines] :=
    List.perm_singleton.mp (sortByDownDesc_perm _)
  simp [profile_plane_strike, hsingle, diffLoop, sum_iterable]

/-- Direction cosines of the horizontal line with trend 0. -/
theorem dc_make_00 : (Line.make 0 0).direction_cosines = ⟨1, 0, 0⟩ := by
  rw [dc_make, if_neg (lt_irrefl 0)]
  ext <;> simp

/-- Direction cosines of the horizontal line with trend π/2. -/
theorem dc_make_0_half_pi :
    (Line.make 0 (π / 2)).direction_cosines = ⟨0, 1, 0⟩ := by
  rw [dc_make, if_neg (lt_irrefl 0)]
  ext <;> simp

/-- The reference direction of the two-pole population used as the C2
witness: the horizontal line perpendicular to trend π/4. -/
theorem strikeRef_pair :
    strikeRef [Line.make 0 0, Line.make 0 (π / 2)] =
      ⟨Real.sqrt 2 / 2, -(Real.sqrt 2 / 2), 0⟩ := by
  have hpi := Real.pi_pos
  have hs2 : (0 : ℝ) < Real.sqrt 2 := by positivity
  have hsum : sumDC [(Line.make 0 0).direction_cosines,
      (Line.make 0 (π / 2)).direction_cosines] = ⟨1, 1, 0⟩ := by
    rw [dc_make_00, dc_make_0_half_pi]
    unfold sumDC
    norm_num
  have hnormv : (DirectionCosines.mk 1 1 0).normalised =
      ⟨1 / Real.sqrt 2, 1 / Real.sqrt 2, 0⟩ := by
    unfold DirectionCosines.normalised DirectionCosines.norm DirectionCosines.div
    simp only
    norm_num
  have hfd : Line.from_direction_cosines ⟨1, 1, 0⟩ = ⟨0, π / 4⟩ := by
    unfold Line.from_direction_cosines
    rw [hnormv]
    have ht : rawTrend ⟨1 / Real.sqrt 2, 1 / Real.sqrt 2, 0⟩ = π / 4 := by
      unfold rawTrend
      simp only
      rw [if_neg (by positivity), if_neg (not_lt.mpr (by positivity))]
      rw [div_self (by positivity), Real.arctan_one]
      ring
    show Line.make (Real.arcsin (DirectionCosines.mk (1 / Real.sqrt 2) (1 / Real.sqrt 2) 0).down)
      (rawTrend ⟨1 / Real.sqrt 2, 1 / Real.sqrt 2, 0⟩) = ⟨0, π / 4⟩
    rw [ht]
    show Line.make (Real.arcsin 0) (π / 4) = ⟨0, π / 4⟩
    rw [Real.arcsin_zero, make_of_nonneg _ _ le_rfl,
      pymod_eq_self _ _ (by positivity) (by linarith) (by linarith)]
  have hm : pymod (π / 4 - π / 2) (2 * π) = 7 * π / 4 := by
    unfold pymod
    have hq : ⌊(π / 4 - π / 2) / (2 * π)⌋ = -1 := by
      rw [show (π / 4 - π / 2) / (2 * π) = -(1 / 8) by field_simp; ring]
      rw [Int.floor_eq_iff] <;> norm_num
    rw [hq]
    push_cast
    ring
  unfold strikeRef
  rw [List.map_cons, List.map_cons, List.map_nil, hsum, hfd]
  show (Line.make 0 ((Line.mk 0 (π / 4)).trend - π / 2)).direction_cosines = _
  have htr : (Line.mk 0 (π / 4)).trend - π / 2 = π / 4 - π / 2 := rfl
  rw [htr, make_of_nonneg _ _ le_rfl, hm]
  unfold Line.direction_cosines
  simp only
  rw [show (7 : ℝ) * π / 4 = -(π / 4) + 2 * π by ring, Real.cos_add_two_pi,
    Real.sin_add_two_pi, Real.cos_neg, Real.sin_neg, Real.cos_pi_div_four,
    Real.sin_pi_div_four]
  ext <;> simp

/-- Witness for the amended C2 theorem on the two-pole population with
trends 0 and π/2. -/
theorem profile_plane_strike_spec_witness :
    2 ≤ ([Line.make 0 0, Line.make 0 (π / 2)] : List Line).length ∧
    profile_plane_strike [Line.make 0 0, Line.make 0 (π / 2)] =
      .ok (specStrike [Line.make 0 0, Line.make 0 (π / 2)]) := by
  have hs2 : (0 : ℝ) < Real.sqrt 2 := by positivity
  refine ⟨by simp, profile_plane_strike_spec _ (by simp) ?_ ?_⟩
  · rw [List.map_cons, List.map_cons, List.map_nil, dc_make_00, dc_make_0_half_pi]
    simp only [List.nodup_cons, List.mem_singleton, List.not_mem_nil,
      not_false_iff, List.nodup_nil, and_true]
    intro hcon
    have := congrArg DirectionCosines.north hcon
    simp only at this
    norm_num at this
  · intro x hx y hy
    rw [List.map_cons, List.map_cons, List.map_nil, dc_make_00, dc_make_0_half_pi] at hx hy
    rw [strikeRef_pair]
    simp only [List.mem_cons, List.mem_singleton, List.not_mem_nil, or_false] at hx hy
    rcases hx with hx | hx <;> rcases hy with hy | hy <;> subst hx <;> subst hy
    · exact Or.inl rfl
    · refine Or.inr ?_
      unfold DirectionCosines.dot_product DirectionCosines.sub
      simp only
      intro hcon
      nlinarith
    · refine Or.inr ?_
      unfold DirectionCosines.dot_product DirectionCosines.sub
      simp only
      intro hcon
      nlinarith
    · exact Or.inl rfl

end Stereonet
